import Mathlib

/-!
Verification of the code-to-image rendering pipeline of the
`tg-code-highlighter` repository.

The development shallowly embeds the two source files:

* `src/render.rs` — `draw_code`: highlighting loop, layout-run based
  canvas sizing, linear-color compositing of glyph coverage events,
  and 8-bit encoding of the pixel buffer;
* `src/main.rs` — `process_inline_query`: the language-hint parsing of
  the inline query text and the resolution of the hint to a grammar.

Machine floats (`f32`) are modelled as rationals `ℚ`; `u8`/`u32`
casts model Rust `as` semantics (truncation toward zero with
saturation).  Strings are modelled as `List Char` (all characters the
claims exercise are ASCII, so byte length and char length agree).
Rust code that can panic (slice indexing past the end, `expect`) is
modelled with `Option`, `none` standing for the panic.
-/

set_option maxRecDepth 10000

namespace TgHl

/-! ### Linear RGBA colors and the palette `over` operator

`palette::LinSrgba` is a straight-alpha linear RGBA color with `f32`
channels; `palette::blend::Compose::over` premultiplies both colors,
applies the premultiplied over operator, then unpremultiplies. -/

/-- Straight-alpha linear RGBA color, embedding `palette::LinSrgba`
(`f32` channels modelled as `ℚ`). -/
structure LinRgba where
  red : ℚ
  green : ℚ
  blue : ℚ
  alpha : ℚ
deriving DecidableEq

/-- palette `Premultiply::premultiply`: multiply the color channels by
the alpha channel. -/
def premultiply (c : LinRgba) : LinRgba :=
  ⟨c.red * c.alpha, c.green * c.alpha, c.blue * c.alpha, c.alpha⟩

/-- palette `Premultiply::unpremultiply`: divide the color channels by
the alpha channel, guarding against a zero alpha. -/
def unpremultiply (c : LinRgba) : LinRgba :=
  if c.alpha = 0 then ⟨0, 0, 0, c.alpha⟩
  else ⟨c.red / c.alpha, c.green / c.alpha, c.blue / c.alpha, c.alpha⟩

/-- The premultiplied over operator: `src + dst * (1 - src.alpha)`
componentwise, alpha included. -/
def preOver (f b : LinRgba) : LinRgba :=
  ⟨f.red + b.red * (1 - f.alpha), f.green + b.green * (1 - f.alpha),
   f.blue + b.blue * (1 - f.alpha), f.alpha + b.alpha * (1 - f.alpha)⟩

/-- `palette::blend::Compose::over` on straight-alpha colors, used by
`draw_code` as `pixel.over(old_pixel)`. -/
def over (f b : LinRgba) : LinRgba :=
  unpremultiply (preOver (premultiply f) (premultiply b))

/-- Claim C2: for every coverage event applied to a canvas pixel the new
value is the over operator applied to the event color and the old pixel;
in particular a fully opaque foreground replaces the background exactly,
and a foreground with alpha 1/2 over an opaque background yields the
exact componentwise average of foreground and background (exact in `ℚ`,
hence within floating-point tolerance in the `f32` program). -/
theorem c2_over_operator (fg bg : LinRgba) :
    (fg.alpha = 1 → over fg bg = fg) ∧
    (fg.alpha = 1 / 2 → bg.alpha = 1 →
      over fg bg = ⟨(fg.red + bg.red) / 2, (fg.green + bg.green) / 2,
        (fg.blue + bg.blue) / 2, 1⟩) := by
  obtain ⟨r, g, b, a⟩ := fg
  obtain ⟨r', g', b', a'⟩ := bg
  constructor
  · intro hf
    simp only [LinRgba.mk.injEq] at *
    subst hf
    simp [over, premultiply, preOver, unpremultiply]
  · intro hf hb
    simp only at hf hb
    subst hf; subst hb
    simp only [over, premultiply, preOver, unpremultiply]
    norm_num
    refine ⟨by ring, by ring, by ring⟩

/-- Witness for C2 at concrete colors. -/
theorem c2_over_operator_witness :
    over ⟨1, 0, 0, 1⟩ ⟨0, 1, 0, 1 / 2⟩ = ⟨1, 0, 0, 1⟩ ∧
    over ⟨1, 0, 0, 1 / 2⟩ ⟨0, 1, 0, 1⟩ = ⟨1 / 2, 1 / 2, 0, 1⟩ := by
  refine ⟨(c2_over_operator ⟨1, 0, 0, 1⟩ ⟨0, 1, 0, 1 / 2⟩).1 rfl, ?_⟩
  have h := (c2_over_operator ⟨1, 0, 0, 1 / 2⟩ ⟨0, 1, 0, 1⟩).2 rfl rfl
  simpa using h

/-! ### Color conversion and canvas initialization

`color_syntect_to_palette` (src/render.rs:41-48) builds a
`palette::LinSrgba` from the theme's 8-bit color by dividing each
channel by `255.0`; the pixel buffer (src/render.rs:89-101) is a
`vec![palette_default_pixel; buf_width * buf_height]`. -/

/-- `syntect::highlighting::Color`: four 8-bit channels. -/
structure SyntectColor where
  r : ℕ
  g : ℕ
  b : ℕ
  a : ℕ
deriving DecidableEq

/-- `color_syntect_to_palette` from src/render.rs:41-48: each 8-bit
channel is divided by 255.0 and the result is stored in the
linear-RGBA-typed value. -/
def color_syntect_to_palette (c : SyntectColor) : LinRgba :=
  ⟨(c.r : ℚ) / 255, (c.g : ℚ) / 255, (c.b : ℚ) / 255, (c.a : ℚ) / 255⟩

/-- The canvas buffer from src/render.rs:96-101: `width * height` copies
of the converted theme background color. -/
def initBuffer (w h : ℕ) (bg : SyntectColor) : List LinRgba :=
  List.replicate (w * h) (color_syntect_to_palette bg)

/-- The sRGB decoding (gamma-to-linear) transfer function of
IEC 61966-2-1, stated from the spec for comparison with the source's
conversion; on the toe segment (`v ≤ 0.04045`) it is `v / 12.92`. -/
noncomputable def srgbToLinearSpec (v : ℝ) : ℝ :=
  if v ≤ 0.04045 then v / 12.92 else ((v + 0.055) / 1.055) ^ (2.4 : ℝ)

/-- The sRGB encoding (linear-to-gamma) transfer function of
IEC 61966-2-1, stated from the spec for comparison with the source's
encoding step; on the toe segment (`v ≤ 0.0031308`) it is `12.92 * v`. -/
noncomputable def srgbFromLinearSpec (v : ℝ) : ℝ :=
  if v ≤ 0.0031308 then 12.92 * v else 1.055 * v ^ ((1 : ℝ) / 2.4) - 0.055

/-- Counterexample to claim C3: the conversion used to initialize the
canvas stores `1/255` for the 8-bit channel value 1, which differs from
the sRGB-to-linear transfer of that channel (`(1/255) / 12.92`); the
code merely divides by 255. -/
theorem c3_background_counterexample :
    ((color_syntect_to_palette ⟨1, 1, 1, 255⟩).red : ℝ) ≠
      srgbToLinearSpec ((1 : ℝ) / 255) := by
  have h1 : ((color_syntect_to_palette ⟨1, 1, 1, 255⟩).red : ℝ) = 1 / 255 := by
    norm_num [color_syntect_to_palette]
  have h2 : srgbToLinearSpec ((1 : ℝ) / 255) = (1 / 255) / 12.92 := by
    rw [srgbToLinearSpec, if_pos (by norm_num)]
  rw [h1, h2]
  norm_num

/-- Amended claim C3: before any coverage event is applied, every pixel
of the canvas buffer equals the theme background color with each stored
8-bit channel divided by 255 and placed in the linear-RGBA-typed buffer;
no sRGB-to-linear transfer function is applied. -/
theorem c3_background_division_only (w h : ℕ) (bg : SyntectColor)
    (p : LinRgba) (hp : p ∈ initBuffer w h bg) :
    p.red = (bg.r : ℚ) / 255 ∧ p.green = (bg.g : ℚ) / 255 ∧
      p.blue = (bg.b : ℚ) / 255 ∧ p.alpha = (bg.a : ℚ) / 255 := by
  rw [initBuffer] at hp
  have := List.eq_of_mem_replicate hp
  subst this
  exact ⟨rfl, rfl, rfl, rfl⟩

/-- Witness for the amended C3 at the Solarized (dark) background
`#002b36` on a 1×1 canvas. -/
theorem c3_background_division_only_witness :
    (color_syntect_to_palette ⟨0, 43, 54, 255⟩).green = (43 : ℚ) / 255 :=
  (c3_background_division_only 1 1 ⟨0, 43, 54, 255⟩
    (color_syntect_to_palette ⟨0, 43, 54, 255⟩)
    (by simp [initBuffer])).2.1

/-! ### Encoding the canvas to 8-bit channels

src/render.rs:132-139: each channel is computed as
`(value.red * 255.0) as u8`; the Rust `as` cast truncates toward zero
and saturates to `[0, 255]`. -/

/-- One channel of the encoding step: `(v * 255.0) as u8`. -/
def encodeChannel (v : ℚ) : ℕ := min 255 (Int.toNat ⌊v * 255⌋)

/-- The four output bytes for one canvas pixel (src/render.rs:135-139). -/
def encodePixel (p : LinRgba) : ℕ × ℕ × ℕ × ℕ :=
  (encodeChannel p.red, encodeChannel p.green, encodeChannel p.blue,
    encodeChannel p.alpha)

/-- Counterexample to claim C4: for the linear channel value `1/500` the
code outputs byte 0, while the claim demands
`round(srgbFromLinear(1/500) * 255) = round(6.5892) = 7`; the encoding
step applies no gamma transfer (and truncates instead of rounding). -/
theorem c4_encode_counterexample :
    (encodeChannel ((1 : ℚ) / 500) : ℤ) ≠
      round (srgbFromLinearSpec ((1 : ℝ) / 500) * 255) := by
  have h1 : encodeChannel ((1 : ℚ) / 500) = 0 := by
    have hf : ⌊((1 : ℚ) / 500) * 255⌋ = 0 := by
      rw [Int.floor_eq_iff]
      norm_num
    rw [encodeChannel, hf]
    rfl
  have h2 : srgbFromLinearSpec ((1 : ℝ) / 500) = 12.92 * (1 / 500) := by
    rw [srgbFromLinearSpec, if_pos (by norm_num)]
  have h3 : round (srgbFromLinearSpec ((1 : ℝ) / 500) * 255) = 7 := by
    rw [h2]
    have he : (12.92 * (1 / 500) * 255 : ℝ) = 6.5892 := by norm_num
    rw [he, round_eq]
    have he2 : (6.5892 : ℝ) + 1 / 2 = 7.0892 := by norm_num
    rw [he2, Int.floor_eq_iff]
    norm_num
  rw [h1, h3]
  decide

/-- Amended claim C4: each output channel is the linear channel value
multiplied by 255 and truncated toward zero (saturating into `[0, 255]`);
no gamma transfer is applied: for `0 ≤ v ≤ 1` the emitted byte `n`
satisfies `n ≤ v * 255 < n + 1` and `n ≤ 255`. -/
theorem c4_encode_truncates (v : ℚ) (h0 : 0 ≤ v) (h1 : v ≤ 1) :
    (encodeChannel v : ℚ) ≤ v * 255 ∧ v * 255 < encodeChannel v + 1 ∧
      encodeChannel v ≤ 255 := by
  have hz : (0 : ℤ) ≤ ⌊v * 255⌋ := by
    apply Int.floor_nonneg.mpr
    positivity
  have hb : ⌊v * 255⌋ ≤ 255 := by
    have hle : v * 255 ≤ ((255 : ℤ) : ℚ) := by push_cast; nlinarith
    have := Int.floor_le_floor hle
    simpa using this
  have henc : encodeChannel v = Int.toNat ⌊v * 255⌋ := by
    rw [encodeChannel]
    omega
  have hcast : ((Int.toNat ⌊v * 255⌋ : ℕ) : ℚ) = ((⌊v * 255⌋ : ℤ) : ℚ) := by
    exact_mod_cast Int.toNat_of_nonneg hz
  refine ⟨?_, ?_, ?_⟩
  · rw [henc, hcast]
    exact Int.floor_le _
  · rw [henc, hcast]
    exact Int.lt_floor_add_one _
  · rw [henc]
    omega

/-- Witness for the amended C4 at `v = 1/2`: the emitted byte is 127 and
`127 ≤ 127.5 < 128`. -/
theorem c4_encode_truncates_witness :
    (encodeChannel ((1 : ℚ) / 2) : ℚ) ≤ (1 : ℚ) / 2 * 255 ∧
      (1 : ℚ) / 2 * 255 < encodeChannel ((1 : ℚ) / 2) + 1 ∧
      encodeChannel ((1 : ℚ) / 2) ≤ 255 :=
  c4_encode_truncates ((1 : ℚ) / 2) (by norm_num) (by norm_num)

/-! ### Canvas sizing from layout runs

src/render.rs:78-87: `max_w` and `max_y` start at `1.0` and take the
maximum of `run.line_w` resp. `run.line_y` over all layout runs; the
canvas dimensions are `max.ceil() as u32 + margin` where
`margin = metrics.font_size as u32 = 48` (the metrics are
`Metrics::new(32.0, 44.0).scale(1.5)`, so `font_size = 48.0`). -/

/-- `margin` from src/render.rs:85: `font_size as u32 = 48`. -/
def margin : ℕ := 48

/-- A cosmic-text layout run as consumed by the sizing loop: its pixel
width and its baseline y coordinate. -/
structure LayoutRun where
  line_w : ℚ
  line_y : ℚ
deriving DecidableEq

/-- `max_w` after the sizing loop of src/render.rs:78-83. -/
def maxW (runs : List LayoutRun) : ℚ :=
  runs.foldl (fun m r => max m r.line_w) 1

/-- `max_y` after the sizing loop of src/render.rs:78-83. -/
def maxY (runs : List LayoutRun) : ℚ :=
  runs.foldl (fun m r => max m r.line_y) 1

/-- Rust `as u32` on a nonnegative-or-negative integer value:
truncation toward zero with saturation into `[0, 2^32 - 1]`. -/
def u32cast (z : ℤ) : ℕ := min z.toNat (2 ^ 32 - 1)

/-- `buf_width` from src/render.rs:86, with `u32` wraparound of the
addition modelled by `% 2^32`. -/
def bufWidth (runs : List LayoutRun) : ℕ :=
  (u32cast ⌈maxW runs⌉ + margin) % 2 ^ 32

/-- `buf_height` from src/render.rs:87. -/
def bufHeight (runs : List LayoutRun) : ℕ :=
  (u32cast ⌈maxY runs⌉ + margin) % 2 ^ 32

theorem foldl_max_init_le (f : LayoutRun → ℚ) :
    ∀ (l : List LayoutRun) (a : ℚ), a ≤ l.foldl (fun m r => max m (f r)) a
  | [], _ => le_refl _
  | r :: rs, a => le_trans (le_max_left a (f r)) (foldl_max_init_le f rs _)

theorem foldl_max_le (f : LayoutRun → ℚ) :
    ∀ (l : List LayoutRun) (a B : ℚ), a ≤ B → (∀ r ∈ l, f r ≤ B) →
      l.foldl (fun m r => max m (f r)) a ≤ B
  | [], _, _, ha, _ => ha
  | r :: rs, a, B, ha, hl => by
    apply foldl_max_le f rs _ B
    · exact max_le ha (hl r (List.mem_cons_self r rs))
    · intro x hx
      exact hl x (List.mem_cons_of_mem r hx)

theorem foldl_max_mono (f : LayoutRun → ℚ) (l₁ l₂ : List LayoutRun)
    (h : List.Forall₂ (fun r s => f r ≤ f s) l₁ l₂) :
    ∀ a b : ℚ, a ≤ b →
      l₁.foldl (fun m r => max m (f r)) a ≤
        l₂.foldl (fun m r => max m (f r)) b := by
  induction h with
  | nil => exact fun a b hab => hab
  | cons hrs _ ih => exact fun a b hab => ih _ _ (max_le_max hab hrs)

theorem dim_formula (q : ℚ) (h1 : 1 ≤ q) (h2 : q ≤ 2 ^ 32 - 49) :
    (u32cast ⌈q⌉ + margin) % 2 ^ 32 = Int.toNat ⌈q⌉ + 48 ∧
      49 ≤ Int.toNat ⌈q⌉ + 48 := by
  have hc1 : (1 : ℤ) ≤ ⌈q⌉ := by
    exact_mod_cast le_trans h1 (Int.le_ceil q)
  have hc2 : ⌈q⌉ ≤ 2 ^ 32 - 49 := by
    apply Int.ceil_le.mpr
    push_cast
    linarith
  have hp : ((2 : ℤ) ^ 32 - 49) = 4294967247 := by norm_num
  have hpn : (2 : ℕ) ^ 32 = 4294967296 := by norm_num
  rw [hp] at hc2
  unfold u32cast margin
  rw [hpn]
  omega

/-- Claim C6: for every list of layout runs whose coordinates stay in
the faithfully-representable `u32` range, both canvas dimensions are at
least `margin + 1 = 49`, hence at least the margin and strictly
positive; with no runs at all (the empty or whitespace-only source) the
hypothesis holds vacuously and both dimensions equal 49. -/
theorem c6_min_dims (runs : List LayoutRun)
    (hb : ∀ r ∈ runs, r.line_w ≤ 2 ^ 32 - 49 ∧ r.line_y ≤ 2 ^ 32 - 49) :
    margin ≤ bufWidth runs ∧ margin ≤ bufHeight runs ∧
      0 < bufWidth runs ∧ 0 < bufHeight runs := by
  have hw1 : 1 ≤ maxW runs := foldl_max_init_le LayoutRun.line_w runs 1
  have hy1 : 1 ≤ maxY runs := foldl_max_init_le LayoutRun.line_y runs 1
  have hw2 : maxW runs ≤ 2 ^ 32 - 49 :=
    foldl_max_le LayoutRun.line_w runs 1 _ (by norm_num)
      (fun r hr => (hb r hr).1)
  have hy2 : maxY runs ≤ 2 ^ 32 - 49 :=
    foldl_max_le LayoutRun.line_y runs 1 _ (by norm_num)
      (fun r hr => (hb r hr).2)
  obtain ⟨hwe, hwge⟩ := dim_formula (maxW runs) hw1 hw2
  obtain ⟨hye, hyge⟩ := dim_formula (maxY runs) hy1 hy2
  rw [bufWidth, bufHeight, hwe, hye]
  have hm : margin = 48 := rfl
  refine ⟨?_, ?_, ?_, ?_⟩ <;> omega

/-- Witness for C6 with no layout runs: the empty source yields a 49×49
canvas, which meets the 48-pixel margin bound and is nonzero. -/
theorem c6_min_dims_witness :
    margin ≤ bufWidth [] ∧ margin ≤ bufHeight [] ∧
      0 < bufWidth [] ∧ 0 < bufHeight [] :=
  c6_min_dims [] (by intro r hr; cases hr)

theorem dim_mono (q₁ q₂ : ℚ) (h1 : 1 ≤ q₁) (h12 : q₁ ≤ q₂)
    (h2 : q₂ ≤ 2 ^ 32 - 49) :
    (u32cast ⌈q₁⌉ + margin) % 2 ^ 32 ≤ (u32cast ⌈q₂⌉ + margin) % 2 ^ 32 := by
  obtain ⟨he1, -⟩ := dim_formula q₁ h1 (le_trans h12 h2)
  obtain ⟨he2, -⟩ := dim_formula q₂ (le_trans h1 h12) h2
  rw [he1, he2]
  have hmono : ⌈q₁⌉ ≤ ⌈q₂⌉ := Int.ceil_le_ceil h12
  omega

/-- Claim C7: canvas dimensions grow monotonically with the layout: if
the runs of source A correspond pointwise (with no larger width and no
larger baseline) to an initial segment of the runs of source B, and B's
runs stay in the faithfully-representable `u32` range, then B's canvas
is at least as wide and at least as tall as A's. -/
theorem c7_monotone_dims (A C D : List LayoutRun)
    (hAC : List.Forall₂
      (fun r s => r.line_w ≤ s.line_w ∧ r.line_y ≤ s.line_y) A C)
    (hb : ∀ r ∈ C ++ D, r.line_w ≤ 2 ^ 32 - 49 ∧ r.line_y ≤ 2 ^ 32 - 49) :
    bufWidth A ≤ bufWidth (C ++ D) ∧ bufHeight A ≤ bufHeight (C ++ D) := by
  have hw12 : maxW A ≤ maxW (C ++ D) := by
    have h1 : maxW A ≤ maxW C :=
      foldl_max_mono LayoutRun.line_w A C
        (hAC.imp (fun a b hab => hab.1)) 1 1 le_rfl
    have h2 : maxW C ≤ maxW (C ++ D) := by
      simp only [maxW, List.foldl_append]
      exact foldl_max_init_le LayoutRun.line_w D _
    exact le_trans h1 h2
  have hy12 : maxY A ≤ maxY (C ++ D) := by
    have h1 : maxY A ≤ maxY C :=
      foldl_max_mono LayoutRun.line_y A C
        (hAC.imp (fun a b hab => hab.2)) 1 1 le_rfl
    have h2 : maxY C ≤ maxY (C ++ D) := by
      simp only [maxY, List.foldl_append]
      exact foldl_max_init_le LayoutRun.line_y D _
    exact le_trans h1 h2
  have hw2 : maxW (C ++ D) ≤ 2 ^ 32 - 49 :=
    foldl_max_le LayoutRun.line_w (C ++ D) 1 _ (by norm_num)
      (fun r hr => (hb r hr).1)
  have hy2 : maxY (C ++ D) ≤ 2 ^ 32 - 49 :=
    foldl_max_le LayoutRun.line_y (C ++ D) 1 _ (by norm_num)
      (fun r hr => (hb r hr).2)
  exact ⟨dim_mono _ _ (foldl_max_init_le LayoutRun.line_w A 1) hw12 hw2,
    dim_mono _ _ (foldl_max_init_le LayoutRun.line_y A 1) hy12 hy2⟩

/-- Witness for C7: one run widened from 10 to 12 pixels plus an
appended run of width 5 at a lower baseline. -/
theorem c7_monotone_dims_witness :
    bufWidth [⟨10, 20⟩] ≤ bufWidth ([⟨12, 20⟩] ++ [⟨5, 80⟩]) ∧
      bufHeight [⟨10, 20⟩] ≤ bufHeight ([⟨12, 20⟩] ++ [⟨5, 80⟩]) :=
  c7_monotone_dims [⟨10, 20⟩] [⟨12, 20⟩] [⟨5, 80⟩]
    (List.Forall₂.cons ⟨by norm_num, le_refl 20⟩ List.Forall₂.nil)
    (by
      intro r hr
      simp only [List.cons_append, List.nil_append,
        List.mem_cons, List.mem_singleton] at hr
      rcases hr with h | h | h
      · subst h; exact ⟨by norm_num, by norm_num⟩
      · subst h; exact ⟨by norm_num, by norm_num⟩
      · cases h)

/-! ### Compositing coverage events onto the canvas

src/render.rs:103-128: the draw closure receives a rectangle
`(x, y, w, h)` and a color, shifts `x` and `y` by `margin / 2`, and for
every `(px, py)` in the rectangle clamps `px` to `[0, buf_width]` and
`py` to `[0, buf_height]` (note: inclusive upper bounds — `i32::clamp`'s
`max` argument is `buf_width as i32` itself), computes
`pos = px + py * buf_width` and updates
`palette_buffer[pos] = pixel.over(palette_buffer[pos])`.  The slice
index panics when `pos` is not below the buffer length; the panic is
modelled by `none`. -/

/-- A glyph coverage event as delivered to the draw closure: rectangle
origin (`i32`), extent (`u32`, assumed below `2^31` as emitted by
cosmic-text), and the straight-alpha linear color of the cell. -/
structure CoverageEvent where
  x : ℤ
  y : ℤ
  w : ℕ
  h : ℕ
  color : LinRgba

/-- The clamped buffer index for one covered pixel
(src/render.rs:120-122): both coordinates are clamped into the
*inclusive* range `[0, buf_width]` × `[0, buf_height]`. -/
def clampPos (bufW bufH : ℕ) (px py : ℤ) : ℕ :=
  (min (max px 0) (bufW : ℤ) + min (max py 0) (bufH : ℤ) * bufW).toNat

/-- The buffer indexes written by one coverage event, in emission order
(src/render.rs:106-122): `px` is the outer loop, `py` the inner one, and
the margin shift `margin / 2` is applied to the rectangle origin. -/
def eventWrites (bufW bufH : ℕ) (ev : CoverageEvent) : List ℕ :=
  (List.range ev.w).flatMap fun i =>
    (List.range ev.h).map fun j =>
      clampPos bufW bufH (ev.x + (margin / 2 : ℕ) + i)
        (ev.y + (margin / 2 : ℕ) + j)

/-- Sequential in-place updates `buf[pos] = over c buf[pos]`
(src/render.rs:124-125); an index at or past the buffer length is the
Rust slice-index panic, modelled by `none`. -/
def applyWrites (c : LinRgba) : List ℕ → List LinRgba → Option (List LinRgba)
  | [], buf => some buf
  | p :: ps, buf =>
    if hp : p < buf.length then
      applyWrites c ps (buf.set p (over c (buf.get ⟨p, hp⟩)))
    else none

/-- One coverage event applied to the canvas buffer. -/
def compositeEvent (bufW bufH : ℕ) (ev : CoverageEvent)
    (buf : List LinRgba) : Option (List LinRgba) :=
  applyWrites ev.color (eventWrites bufW bufH ev) buf

/-- The theme background pixel used in the concrete compositing
scenarios (Solarized dark `#002b36`). -/
def bgPixel : LinRgba := color_syntect_to_palette ⟨0, 43, 54, 255⟩

/-- Claim C1 is violated by the code (code bug): on the minimal 49×49
canvas, a 1×1 coverage event one pixel below the bottom edge (rectangle
origin `(0, 25)`, shifted by `margin / 2 = 24` to pixel `(24, 49)`) is
clamped to `py = buf_height` itself, giving index
`24 + 49 * 49 = 2425 ≥ 2401`, an out-of-range slice index — a panic
(`none`), not a clamped in-bounds composite.  Moreover an event one
pixel past the right edge (origin `(25, 0)`, shifted to `(49, 24)`) is
clamped to `px = buf_width` and written at index `25 * 49`, which is
pixel `(0, 25)` — a pixel outside the event's own rectangle. -/
theorem c1_clamp_bug :
    compositeEvent 49 49 ⟨0, 25, 1, 1, ⟨1, 1, 1, 1⟩⟩
        (List.replicate (49 * 49) bgPixel) = none ∧
      eventWrites 49 49 ⟨25, 0, 1, 1, ⟨1, 1, 1, 1⟩⟩ = [25 * 49] := by
  constructor
  · have hw : eventWrites 49 49 ⟨0, 25, 1, 1, ⟨1, 1, 1, 1⟩⟩ = [2425] := by
      rfl
    have hl : (List.replicate (49 * 49) bgPixel).length = 2401 := by
      rw [List.length_replicate]
    have hn : ¬ (2425 < (List.replicate (49 * 49) bgPixel).length) := by
      rw [hl]
      norm_num
    rw [compositeEvent, hw]
    simp only [applyWrites]
    rw [dif_neg hn]
  · rfl

/-! ### Highlighting a trimmed source into styled lines with spans

src/render.rs:50-73: the source is trimmed, split by
`LinesWithEndings` (each line keeps its `\n`; the last line may lack
one), each line is passed to `highlight_line` (whose failure the code
turns into a panic via `expect`), and the returned ranges are turned
into attribute spans `start..end` by advancing a cursor by each range
text's length. -/

/-- Rust `str::trim`: drop whitespace from both ends. -/
def trimChars (s : List Char) : List Char :=
  ((s.dropWhile Char.isWhitespace).reverse.dropWhile Char.isWhitespace).reverse

def linesAux (acc : List Char) : List Char → List (List Char)
  | [] => if acc = [] then [] else [acc.reverse]
  | c :: rest =>
    if c = '\n' then (acc.reverse ++ ['\n']) :: linesAux [] rest
    else linesAux (c :: acc) rest

/-- `syntect::util::LinesWithEndings`: split into lines, each keeping
its terminating newline; a final segment without a newline is kept as
is; the empty string yields no lines. -/
def linesWithEndings (s : List Char) : List (List Char) :=
  linesAux [] s

/-- The cursor loop of src/render.rs:62-69: one `start..end` span per
highlight range, each starting where the previous one stopped. -/
def buildSpans (cursor : ℕ) : List (List Char) → List (ℕ × ℕ)
  | [] => []
  | t :: ts => (cursor, cursor + t.length) :: buildSpans (cursor + t.length) ts

/-- Spans are contiguous from a given cursor: each starts where the
previous one stopped and none runs backward. -/
def chain (c : ℕ) : List (ℕ × ℕ) → Prop
  | [] => True
  | s :: rest => s.1 = c ∧ s.1 ≤ s.2 ∧ chain s.2 rest

/-- The position where the last span stops (the cursor when there is no
span). -/
def spansEnd (c : ℕ) : List (ℕ × ℕ) → ℕ
  | [] => c
  | s :: rest => spansEnd s.2 rest

/-- The text slice of the line a span refers to. -/
def sliceSpan (line : List Char) (s : ℕ × ℕ) : List Char :=
  (line.drop s.1).take (s.2 - s.1)

/-- The length of a line's content excluding its line terminator, the
coverage claim C8 asserts for the styled spans. -/
def contentLength (line : List Char) : ℕ :=
  if line.getLast? = some '\n' then line.length - 1 else line.length

/-- Claim C8's coverage property: the spans stop exactly at the end of
the line's content excluding the terminator. -/
def coversExcludingTerminator (line : List Char) (spans : List (ℕ × ℕ)) : Prop :=
  spansEnd 0 spans = contentLength line

/-- The per-line loop of src/render.rs:52-73, parameterized by the
external lexical engine `hl` (syntect's `highlight_line`, which returns
ranges whose concatenation is the input line): a failure hits the
`expect` — a panic, modelled by `none`; on success the line is stored
with its spans. -/
def processLines (hl : List Char → Except Unit (List (List Char))) :
    List (List Char) → Option (List (List Char × List (ℕ × ℕ)))
  | [] => some []
  | l :: ls =>
    match hl l with
    | Except.error _ => none
    | Except.ok ranges =>
      (processLines hl ls).map (fun rest => (l, buildSpans 0 ranges) :: rest)

/-- The highlighting stage of `draw_code`: trim, split into lines with
endings, process each line in order. -/
def styleLines (hl : List Char → Except Unit (List (List Char)))
    (code : List Char) : Option (List (List Char × List (ℕ × ℕ))) :=
  processLines hl (linesWithEndings (trimChars code))

theorem buildSpans_spec (line : List Char) :
    ∀ (ranges : List (List Char)) (c : ℕ),
      line.drop c = ranges.flatten →
      chain c (buildSpans c ranges) ∧
        spansEnd c (buildSpans c ranges) = c + ranges.flatten.length ∧
        (buildSpans c ranges).map (sliceSpan line) = ranges
  | [], c, h => by simp [buildSpans, chain, spansEnd]
  | t :: ts, c, h => by
    have hdrop : line.drop c = t ++ ts.flatten := by simpa using h
    have hnext : line.drop (c + t.length) = ts.flatten := by
      rw [← List.drop_drop, hdrop, List.drop_left]
    obtain ⟨ih1, ih2, ih3⟩ := buildSpans_spec line ts (c + t.length) hnext
    refine ⟨⟨rfl, Nat.le_add_right c t.length, ih1⟩, ?_, ?_⟩
    · simp only [buildSpans, spansEnd, ih2, List.flatten_cons,
        List.length_append]
      omega
    · simp only [buildSpans, List.map_cons, ih3, List.cons.injEq,
        and_true]
      rw [sliceSpan]
      simp only [Nat.add_sub_cancel_left]
      rw [hdrop, List.take_left]

/-- Amended claim C8: the styled spans attached to a line are contiguous
and non-overlapping starting at offset 0, their slices reproduce the
highlight ranges whose concatenation is the line's text, and they cover
the *entire* text fed to the highlighter — which, for every line except
possibly the last, *includes* the line terminator (`LinesWithEndings`
keeps the `\n`); the terminator is not excluded. -/
theorem c8_spans_cover_full_line (ranges : List (List Char))
    (line : List Char) (h : ranges.flatten = line) :
    chain 0 (buildSpans 0 ranges) ∧
      spansEnd 0 (buildSpans 0 ranges) = line.length ∧
      (buildSpans 0 ranges).map (sliceSpan line) = ranges := by
  obtain ⟨h1, h2, h3⟩ := buildSpans_spec line ranges 0 (by simpa using h.symm)
  exact ⟨h1, by simpa [h] using h2, h3⟩

/-- Witness for the amended C8: two ranges over the line `"ab\n"`. -/
theorem c8_spans_cover_full_line_witness :
    chain 0 (buildSpans 0 [['a'], ['b', '\n']]) ∧
      spansEnd 0 (buildSpans 0 [['a'], ['b', '\n']]) =
        (['a', 'b', '\n'] : List Char).length ∧
      (buildSpans 0 [['a'], ['b', '\n']]).map (sliceSpan ['a', 'b', '\n']) =
        [['a'], ['b', '\n']] :=
  c8_spans_cover_full_line [['a'], ['b', '\n']] ['a', 'b', '\n'] rfl

/-- Counterexample to claim C8 as stated: the first line of the
two-line source `"a\nb"` is `"a\n"` (the terminator is kept), a
highlight result covering that whole line induces the single span
`(0, 2)`, and that span does not stop at the content length 1 — the
styled line covers the terminator rather than excluding it. -/
theorem c8_terminator_counterexample :
    (linesWithEndings ['a', '\n', 'b']).headD [] = ['a', '\n'] ∧
      ([['a', '\n']] : List (List Char)).flatten = ['a', '\n'] ∧
      ¬ coversExcludingTerminator ['a', '\n'] (buildSpans 0 [['a', '\n']]) := by
  refine ⟨rfl, rfl, ?_⟩
  rw [coversExcludingTerminator]
  decide

/-- Counterexample to claim C5: when the lexical engine fails on a line
(`highlight_line` returns an error), `draw_code` hits the `expect` and
panics (`none`): it neither returns an error value (its return type has
no error alternative) nor renders anything. -/
theorem c5_parse_failure_panics :
    styleLines (fun _ => Except.error ()) ['x'] = none := by
  rfl

/-- Amended claim C5: a line-parse failure makes the highlighting stage
panic via `expect` (modelled by `none`) instead of returning an error
value, and conversely the stage only aborts this way when some line
fails — in particular no line's content is ever silently skipped. -/
theorem c5_panic_iff_failure
    (hl : List Char → Except Unit (List (List Char)))
    (lines : List (List Char)) :
    processLines hl lines = none ↔ ∃ l ∈ lines, hl l = Except.error () := by
  induction lines with
  | nil => simp [processLines]
  | cons l ls ih =>
    cases hhl : hl l with
    | error e =>
      cases e
      simp only [processLines, hhl]
      constructor
      · intro _
        exact ⟨l, List.mem_cons_self l ls, hhl⟩
      · intro _
        trivial
    | ok ranges =>
      simp only [processLines, hhl]
      rw [Option.map_eq_none', ih]
      constructor
      · rintro ⟨l', hm, he⟩
        exact ⟨l', List.mem_cons_of_mem _ hm, he⟩
      · rintro ⟨l', hm, he⟩
        rcases List.mem_cons.mp hm with h | h
        · subst h
          rw [hhl] at he
          cases he
        · exact ⟨l', h, he⟩

/-! ### Language-hint parsing of the inline query

src/main.rs:140-155: if the query text contains a `:`, the part before
the first `:` is inspected; if it has no space character `' '` it
becomes the extension hint and the code is everything after the first
`:` (the remaining parts joined back with `:`); otherwise the whole
text is the code with no hint.  src/main.rs:186-190 and 229 resolve the
hint: a present hint is looked up by extension, an absent lookup result
falls back to the plain text grammar via `unwrap_or`. -/

/-- Rust `str::split(sep)`: the pieces between occurrences of the
separator, empty pieces included; never the empty list. -/
def splitOn (sep : Char) : List Char → List (List Char)
  | [] => [[]]
  | c :: cs =>
    if c = sep then [] :: splitOn sep cs
    else (c :: (splitOn sep cs).headD []) :: (splitOn sep cs).tail

/-- Rust `Vec::join(sep)` on the split pieces. -/
def joinSep (sep : Char) : List (List Char) → List Char
  | [] => []
  | [p] => p
  | p :: q :: ps => p ++ sep :: joinSep sep (q :: ps)

/-- The hint parsing of src/main.rs:140-155: returns the extension hint
(if any) and the code text handed to the renderer. -/
def parseQuery (s : List Char) : Option (List Char) × List Char :=
  if s.contains ':' then
    if ((splitOn ':' s).headD []).contains ' ' then (none, s)
    else (some ((splitOn ':' s).headD []), joinSep ':' ((splitOn ':' s).tail))
  else (none, s)

/-- Claim C9's described behavior: a hint is recognized exactly when the
text contains a colon and the leading token before the first colon has
no intervening *whitespace* of any kind. -/
def claimParse (s : List Char) : Option (List Char) × List Char :=
  let tok := s.takeWhile (fun c => c != ':')
  if ':' ∈ s ∧ ∀ c ∈ tok, ¬ c.isWhitespace then
    (some tok, s.drop (tok.length + 1))
  else (none, s)

/-- The amended behavior: a hint is recognized exactly when the text
contains a colon and the part before the first colon has no *space
character* `' '` (other whitespace such as tabs does not block the
hint). -/
def claimParseAmended (s : List Char) : Option (List Char) × List Char :=
  let tok := s.takeWhile (fun c => c != ':')
  if ':' ∈ s ∧ ' ' ∉ tok then (some tok, s.drop (tok.length + 1))
  else (none, s)

/-- Hint resolution from src/main.rs:186-190 and 229: a present hint is
looked up by extension and `unwrap_or` falls back to the plain-text
grammar; an absent hint selects plain text directly. -/
def resolveLanguage {α : Type} (ext : Option (List Char))
    (lookup : List Char → Option α) (plain : α) : α :=
  (match ext with
   | some e => lookup e
   | none => some plain).getD plain

theorem splitOn_ne_nil (sep : Char) : ∀ s : List Char, splitOn sep s ≠ []
  | [] => by simp [splitOn]
  | c :: cs => by
    rw [splitOn]
    split
    · simp
    · simp

theorem splitOn_head (sep : Char) :
    ∀ s : List Char,
      (splitOn sep s).headD [] = s.takeWhile (fun c => c != sep)
  | [] => by simp [splitOn]
  | c :: cs => by
    rw [splitOn, List.takeWhile_cons]
    by_cases h : c = sep
    · subst h
      rw [if_pos rfl, if_neg (by simp)]
      simp
    · rw [if_neg h, if_pos (by simp [h])]
      simp only [List.headD_cons, List.cons.injEq, true_and]
      exact splitOn_head sep cs

theorem joinSep_splitOn (sep : Char) :
    ∀ s : List Char, joinSep sep (splitOn sep s) = s
  | [] => rfl
  | c :: cs => by
    rw [splitOn]
    by_cases h : c = sep
    · rw [if_pos h]
      cases hs : splitOn sep cs with
      | nil => exact absurd hs (splitOn_ne_nil sep cs)
      | cons p ps =>
        have ihc := joinSep_splitOn sep cs
        rw [hs] at ihc
        rw [joinSep, ihc, h]
        simp
    · rw [if_neg h]
      cases hs : splitOn sep cs with
      | nil => exact absurd hs (splitOn_ne_nil sep cs)
      | cons p ps =>
        have ihc := joinSep_splitOn sep cs
        rw [hs] at ihc
        simp only [List.headD_cons, List.tail_cons]
        cases ps with
        | nil =>
          rw [joinSep] at ihc ⊢
          rw [ihc]
        | cons q qs =>
          rw [joinSep] at ihc ⊢
          rw [← ihc]
          simp

theorem joinSep_splitOn_tail (sep : Char) (s : List Char) (hs : sep ∈ s) :
    joinSep sep ((splitOn sep s).tail) =
      s.drop ((s.takeWhile (fun c => c != sep)).length + 1) := by
  induction s with
  | nil => cases hs
  | cons c cs ih =>
    rw [splitOn, List.takeWhile_cons]
    by_cases h : c = sep
    · subst h
      rw [if_pos rfl, if_neg (by simp), List.tail_cons, joinSep_splitOn]
      simp
    · have hmem : sep ∈ cs := by
        rcases List.mem_cons.mp hs with h1 | h1
        · exact absurd h1.symm h
        · exact h1
      rw [if_neg h, if_pos (by simp [h]), List.tail_cons, ih hmem]
      simp only [List.length_cons]
      rw [List.drop_succ_cons]

/-- Counterexample to claim C9: in the query text `"a\t:b"` the leading
token is separated from the colon by a tab — intervening whitespace — so
the claim prescribes no hint, but the code checks only for the space
character and extracts the hint `"a\t"` with code `"b"`. -/
theorem c9_whitespace_counterexample :
    parseQuery ['a', '\t', ':', 'b'] = (some ['a', '\t'], ['b']) ∧
      claimParse ['a', '\t', ':', 'b'] = (none, ['a', '\t', ':', 'b']) := by
  constructor
  · rfl
  · rfl

/-- Amended claim C9: for every inline-query text, a hint is extracted
exactly when the text contains a colon and the part before the first
colon contains no space character `' '` (not: no whitespace); in that
case the hint is that part and the code is everything after the first
colon; otherwise the entire text is the code with no hint. -/
theorem c9_hint_parsing (s : List Char) :
    parseQuery s = claimParseAmended s := by
  rw [parseQuery, claimParseAmended, splitOn_head]
  by_cases hc : ':' ∈ s
  · rw [if_pos (by simpa using hc)]
    by_cases hsp : ' ' ∈ s.takeWhile (fun c => c != ':')
    · rw [if_pos (by simpa using hsp), if_neg (by simp [hc, hsp])]
    · rw [if_neg (by simpa using hsp), if_pos ⟨hc, hsp⟩,
        joinSep_splitOn_tail ':' s hc]
  · rw [if_neg (by simpa using hc), if_neg (by simp [hc])]

/-- Claim C10: a query text beginning with a colon yields the empty
hint, the leading colon is stripped from the code, and since the
extension lookup for the empty hint finds nothing the renderer receives
the plain-text fallback grammar instead of an error. -/
theorem c10_leading_colon_plain_fallback {α : Type} (rest : List Char)
    (lookup : List Char → Option α) (plain : α) (hl : lookup [] = none) :
    parseQuery (':' :: rest) = (some [], rest) ∧
      resolveLanguage (parseQuery (':' :: rest)).1 lookup plain = plain := by
  have hp : parseQuery (':' :: rest) = (some [], rest) := by
    rw [parseQuery, if_pos (by simp), splitOn, if_pos rfl]
    simp only [List.headD_cons, List.tail_cons]
    rw [if_neg (by simp), joinSep_splitOn]
  refine ⟨hp, ?_⟩
  rw [hp]
  simp [resolveLanguage, hl]

/-- Witness for C10 at the query `":a"` with an empty lookup table. -/
theorem c10_leading_colon_plain_fallback_witness :
    parseQuery [':', 'a'] = (some [], ['a']) ∧
      resolveLanguage (parseQuery [':', 'a']).1
        (fun _ => (none : Option Bool)) true = true :=
  c10_leading_colon_plain_fallback ['a'] (fun _ => (none : Option Bool))
    true rfl

end TgHl
